import Mathlib

/-!
Verification of the lazy stream library (`src/lazystream/__init__.py`).

A `LazyStream` wraps a single zero-argument producer (`self._generator`)
that either returns the next value or raises `StopIteration` (the
exhaustion signal).  We embed a producer as a state machine
`Gen σ α = σ → Option α × σ`: one invocation returns `some a` (a value)
or `none` (the exhaustion signal), together with the updated internal
state of whatever the closure captures.

The canonical finite source of length `N` is `from_iterator(iter(xs))`
over a list `xs` of `N` elements: this is `listGen`.  To reason about how
many times a producer was invoked we thread an invocation counter through
the state (`counted`); the derived streams that the claims need carry
their counters inside their own state records.

`__safe_iter(limit)` is a generator running `while limit is None or
i < limit: try: yield self._generator() except StopIteration: break`.
Draining it (`evaluate(limit)`) is `evaluate g n s` below; the
`limit=None` case runs the identical loop without the bound, so on a
stream that exhausts within `n` pulls it agrees with `evaluate g n`,
and theorems about `evaluate()` quantify over every sufficiently large
bound `n` (fuel).
-/

namespace LazyStream

variable {α β σ τ : Type}

/-- Producer contract: one invocation of `self._generator` returns the
next value (`some a`) or the exhaustion signal `none` (`StopIteration`),
plus the updated captured state. -/
def Gen (σ α : Type) : Type := σ → Option α × σ

/-- Producer of `from_iterator(iter(xs))`: state is the remaining list;
an exhausted iterator keeps signalling exhaustion. -/
def listGen : Gen (List α) α := fun xs =>
  match xs with
  | [] => (none, [])
  | a :: t => (some a, t)

/-- Instrumentation: thread a counter of producer invocations through the
state.  Every invocation, also one that signals exhaustion, counts. -/
def counted (g : Gen σ α) : Gen (σ × Nat) α := fun sc =>
  ((g sc.1).1, ((g sc.1).2, sc.2 + 1))

/-- Body of `evaluate(limit=n)`: drain `__safe_iter(n)` eagerly; pull at
most `n` times, stopping early at the first exhaustion signal.  Returns
the collected values in pull order and the final producer state.  The
`limit=None` variant of `__safe_iter` runs the same loop unbounded, so
`evaluate()` on a stream that exhausts within `n` pulls equals
`evaluate g n`. -/
def evaluate (g : Gen σ α) : Nat → σ → List α × σ
  | 0, s => ([], s)
  | n + 1, s =>
    match g s with
    | (none, s') => ([], s')
    | (some a, s') =>
      let r := evaluate g n s'
      (a :: r.1, r.2)

/-- `__safe_next` (hence `__next__` / the single-pull operation): pull a
fresh `__safe_iter()` once.  The first step of that generator invokes the
producer exactly once: a value is yielded unchanged, `StopIteration`
ends the generator so `next` re-raises the exhaustion fault. -/
def safeNext (g : Gen σ α) (s : σ) : Option α × σ :=
  match g s with
  | (some a, s') => (some a, s')
  | (none, s') => (none, s')

/-- Derived producer of `map(f)`: `lambda: func(self.__safe_next())` —
invoke the source once; apply `f` to a value, propagate exhaustion
unchanged.  The state is exactly the source state. -/
def map (g : Gen σ α) (f : α → β) : Gen σ β := fun s =>
  match g s with
  | (some a, s') => (some (f a), s')
  | (none, s') => (none, s')

/-- Closed form of evaluation of a counted list-backed source:
`evaluate(n)` returns the first `n` elements (all of them when
`n ≥ length`), leaves `drop n` un-pulled, and performs
`min n (length + 1)` producer invocations (one element per invocation,
plus one final invocation that signals exhaustion when the limit was not
reached first). -/
theorem evaluate_counted_listGen (xs : List α) (n c : Nat) :
    evaluate (counted listGen) n (xs, c)
      = (xs.take n, (xs.drop n, c + min n (xs.length + 1))) := by
  induction n generalizing xs c with
  | zero => simp [evaluate]
  | succ n ih =>
    cases xs with
    | nil => simp [evaluate, counted, listGen]
    | cons a t =>
      simp only [evaluate, counted, listGen, ih, List.take_succ_cons,
        List.drop_succ_cons, List.length_cons, Prod.mk.injEq, List.cons.injEq,
        true_and]
      omega

/-- C8: `evaluate(0)` returns an empty collection, the producer is not
invoked at all, and the producer state is unchanged.  Stated over the
instrumented stream (invocation count `c` stays `c`) and over an
arbitrary producer state. -/
theorem evaluate_zero_no_pull (g : Gen σ α) (s : σ) (c : Nat) :
    evaluate (counted g) 0 (s, c) = ([], (s, c)) ∧ evaluate g 0 s = ([], s) :=
  ⟨rfl, rfl⟩

/-- C6: functor law.  Evaluating `map(f)` with any limit (hence also
`evaluate()` on a finite source, taking the limit large enough) yields
exactly `f` mapped over the evaluation of the source, and the final
source state is identical — exhaustion is propagated unchanged, at the
same point. -/
theorem evaluate_map (g : Gen σ α) (f : α → β) (n : Nat) (s : σ) :
    evaluate (map g f) n s
      = (((evaluate g n s).1).map f, (evaluate g n s).2) := by
  induction n generalizing s with
  | zero => simp [evaluate]
  | succ n ih =>
    simp only [evaluate, map]
    cases hg : g s with
    | mk r s' =>
      cases r with
      | none => simp
      | some a => simp [ih]

/-- C9: the single-pull operation invokes the producer exactly once; if
that invocation signals exhaustion the caller receives the explicit
exhaustion fault `none` (never a silent default value of type `α`), and
otherwise the one pulled element is returned with the state advanced by
that single pull. -/
theorem safeNext_spec (g : Gen σ α) (s s' : σ) :
    (∀ _h : g s = (none, s'), safeNext g s = (none, s')) ∧
    (∀ a, ∀ _h : g s = (some a, s'), safeNext g s = (some a, s')) := by
  constructor
  · intro h
    simp [safeNext, h]
  · intro a h
    simp [safeNext, h]

/-- Witness for `safeNext_spec`: on the exhausted source `[]` the pull
faults with `none`; on `[7]` it returns `7` after exactly one producer
invocation. -/
theorem safeNext_spec_witness :
    safeNext (counted listGen) (([] : List Nat), 0) = (none, ([], 1)) ∧
    safeNext (counted listGen) ([7], 0) = (some 7, ([], 1)) := by
  constructor
  · exact (safeNext_spec (counted listGen) (([] : List Nat), 0) ([], 1)).1 rfl
  · exact (safeNext_spec (counted listGen) ([7], 0) ([], 1)).2 7 rfl

/-- C1 (counterexample): the claim asserts that after `evaluate(L)` with
`L < N` the source has `L` elements left un-pulled.  On the source
`[0, 1, 2]` with `L = 1`, `evaluate(1)` returns `[0]` after exactly one
pull, and `2` elements remain un-pulled, not `1`. -/
theorem evaluate_limit_remaining_cex :
    (evaluate (counted listGen) 1 (([0, 1, 2] : List Nat), 0)).1 = [0] ∧
    (evaluate (counted listGen) 1 (([0, 1, 2] : List Nat), 0)).2.2 = 1 ∧
    ¬ ((evaluate (counted listGen) 1 (([0, 1, 2] : List Nat), 0)).2.1.length = 1) := by
  refine ⟨rfl, rfl, ?_⟩
  decide

/-- C1 (amended): for a finite source of length `N` and limit `L`: if
`L ≥ N` then `evaluate(L)` returns all `N` elements in source order; if
`L < N` it returns exactly the first `L` elements in order, exactly `L`
producer invocations are performed, and `N - L` elements are left
un-pulled. -/
theorem evaluate_limit_spec (xs : List α) (L c : Nat) :
    (∀ _h : xs.length ≤ L,
      (evaluate (counted listGen) L (xs, c)).1 = xs) ∧
    (∀ _h : L < xs.length,
      evaluate (counted listGen) L (xs, c)
        = (xs.take L, (xs.drop L, c + L)) ∧
      (xs.drop L).length = xs.length - L) := by
  constructor
  · intro h
    rw [evaluate_counted_listGen]
    exact List.take_of_length_le h
  · intro h
    rw [evaluate_counted_listGen]
    refine ⟨?_, by simp⟩
    have : min L (xs.length + 1) = L := by omega
    rw [this]

/-- Witness for `evaluate_limit_spec`: on `[0, 1, 2]`, `evaluate(5)`
returns all three elements, and `evaluate(1)` returns `[0]` with `[1, 2]`
(two elements) un-pulled after one producer invocation. -/
theorem evaluate_limit_spec_witness :
    (evaluate (counted listGen) 5 (([0, 1, 2] : List Nat), 0)).1 = [0, 1, 2] ∧
    (evaluate (counted listGen) 1 (([0, 1, 2] : List Nat), 0)
        = ([0], ([1, 2], 1)) ∧
      (([0, 1, 2] : List Nat).drop 1).length = 3 - 1) := by
  constructor
  · exact (evaluate_limit_spec [0, 1, 2] 5 0).1 (by decide)
  · have h := (evaluate_limit_spec ([0, 1, 2] : List Nat) 1 0).2 (by decide)
    simpa using h

/-- State of the generator backing `filter(p)` over a list-backed source
(`for value in self.__safe_iter(): if predicate(value): yield value`):
the remaining source elements, the number of source-producer invocations
so far, and whether the generator has finished (a finished Python
generator raises `StopIteration` on every later `next` without running
its body, hence without pulling the source). -/
structure FilState (α : Type) where
  src : List α
  calls : Nat
  done : Bool
  deriving DecidableEq, Repr

/-- One round of the loop inside the `filter` generator: pull the source
repeatedly, discarding values failing the predicate, until a match is
yielded or the source signals exhaustion.  Every source invocation
(including the final exhausted one) is counted. -/
def filterPull (p : α → Bool) : List α → Nat → Option α × List α × Nat
  | [], c => (none, [], c + 1)
  | a :: t, c => if p a then (some a, t, c + 1) else filterPull p t (c + 1)

/-- Derived producer of `filter(p)`: a finished generator keeps signalling
exhaustion untouched; otherwise run the loop, and mark the generator
finished when the source exhausts before a match. -/
def filterGen (p : α → Bool) : Gen (FilState α) α := fun st =>
  if st.done then (none, st)
  else
    match filterPull p st.src st.calls with
    | (none, src', c') => (none, ⟨src', c', true⟩)
    | (some a, src', c') => (some a, ⟨src', c', false⟩)

/-- Construction of `filter(p)` on a source in state `(xs, c)`: wraps the
new generator, pulling nothing. -/
def filterInit (xs : List α) (c : Nat) : FilState α := ⟨xs, c, false⟩

theorem dropWhile_length_le (p : α → Bool) :
    ∀ xs : List α, (xs.dropWhile p).length ≤ xs.length := by
  intro xs
  induction xs with
  | nil => simp
  | cons a t ih =>
    by_cases h : p a
    · simp only [List.dropWhile_cons, if_pos h, List.length_cons]
      omega
    · simp [List.dropWhile_cons, if_neg h]

theorem filterPull_eq (p : α → Bool) :
    ∀ (xs : List α) (c : Nat),
    filterPull p xs c
      = ((xs.dropWhile fun a => !p a).head?,
         (xs.dropWhile fun a => !p a).tail,
         c + (xs.length - (xs.dropWhile fun a => !p a).length) + 1) := by
  intro xs
  induction xs with
  | nil => intro c; simp [filterPull]
  | cons a t ih =>
    intro c
    cases hpa : p a with
    | true => simp [filterPull, hpa, List.dropWhile_cons]
    | false =>
      have hle := dropWhile_length_le (fun a => !p a) t
      have hstep : filterPull p (a :: t) c = filterPull p t (c + 1) := by
        simp [filterPull, hpa]
      have hdw : (a :: t).dropWhile (fun a => !p a)
          = t.dropWhile (fun a => !p a) := by
        simp [List.dropWhile_cons, hpa]
      rw [hstep, ih (c + 1), hdw]
      simp only [List.length_cons, Prod.mk.injEq, eq_self_iff_true, true_and]
      omega

theorem filter_of_dropWhile_nil (p : α → Bool) :
    ∀ xs : List α, xs.dropWhile (fun a => !p a) = [] → xs.filter p = [] := by
  intro xs
  induction xs with
  | nil => intro _; rfl
  | cons a t ih =>
    intro h
    rw [List.dropWhile_cons] at h
    cases hpa : p a with
    | true => rw [hpa] at h; simp at h
    | false =>
      rw [hpa] at h
      simp only [Bool.not_false, if_true] at h
      simp [List.filter_cons, hpa, ih h]

theorem filter_of_dropWhile_cons (p : α → Bool) :
    ∀ (xs : List α) (b : α) (u : List α),
    xs.dropWhile (fun a => !p a) = b :: u → xs.filter p = b :: u.filter p := by
  intro xs
  induction xs with
  | nil => intro b u h; simp at h
  | cons a t ih =>
    intro b u h
    rw [List.dropWhile_cons] at h
    cases hpa : p a with
    | true =>
      rw [hpa] at h
      simp only [Bool.not_true, Bool.false_eq_true, if_false,
        List.cons.injEq] at h
      obtain ⟨rfl, rfl⟩ := h
      simp [List.filter_cons, hpa]
    | false =>
      rw [hpa] at h
      simp only [Bool.not_false, if_true] at h
      simp [List.filter_cons, hpa, ih b u h]

theorem evaluate_succ (g : Gen σ α) (n : Nat) (s : σ) :
    evaluate g (n + 1) s
      = match g s with
        | (none, s') => ([], s')
        | (some a, s') =>
          ((evaluate g n s').1.cons a, (evaluate g n s').2) := by
  show _ = _
  cases hg : g s with
  | mk r s' =>
    cases r with
    | none => simp [evaluate, hg]
    | some a => simp [evaluate, hg]

theorem filterGen_not_done (p : α → Bool) (xs : List α) (c : Nat) :
    filterGen p ⟨xs, c, false⟩
      = match filterPull p xs c with
        | (none, src', c') => (none, ⟨src', c', true⟩)
        | (some a, src', c') => (some a, ⟨src', c', false⟩) := rfl

theorem evaluate_filterGen (p : α → Bool) :
    ∀ (fuel : Nat) (xs : List α) (c : Nat), xs.length + 1 ≤ fuel →
    evaluate (filterGen p) fuel ⟨xs, c, false⟩
      = (xs.filter p, ⟨[], c + xs.length + 1, true⟩) := by
  intro fuel
  induction fuel with
  | zero => intro xs c h; omega
  | succ n ih =>
    intro xs c h
    have hpull := filterPull_eq p xs c
    have hle := dropWhile_length_le (fun a => !p a) xs
    cases hys : xs.dropWhile (fun a => !p a) with
    | nil =>
      rw [hys] at hpull hle
      have hfil := filter_of_dropWhile_nil p xs hys
      have hpull' : filterPull p xs c = (none, [], c + xs.length + 1) := by
        rw [hpull]; simp
      rw [evaluate_succ, filterGen_not_done, hpull']
      dsimp only
      rw [hfil]
    | cons b u =>
      rw [hys] at hpull hle
      have hfil := filter_of_dropWhile_cons p xs b u hys
      have hlen : u.length + 1 ≤ xs.length := by
        simp only [List.length_cons] at hle; omega
      have hpull' : filterPull p xs c
          = (some b, u, c + (xs.length - (u.length + 1)) + 1) := by
        rw [hpull]; simp
      have ihu := ih u (c + (xs.length - (u.length + 1)) + 1) (by omega)
      rw [evaluate_succ, filterGen_not_done, hpull']
      dsimp only
      rw [ihu, hfil]
      simp only [Prod.mk.injEq, List.cons.injEq, FilState.mk.injEq,
        eq_self_iff_true, true_and, and_true, List.cons_eq_cons]
      omega

/-- C5: `filter(p)` then `evaluate()` returns exactly the elements of the
evaluation of the source that satisfy `p`, in source order (draining the
whole source: every source element is pulled once plus one final
exhausted invocation, and the generator finishes); and each single pull
of the filtered stream runs the source loop: it discards the longest
prefix of failing values, yields the first match (advancing and counting
one source invocation per discarded or yielded element), and signals
exhaustion when the source exhausts before any match. -/
theorem filter_evaluate_spec (p : α → Bool) (xs : List α) (c fuel : Nat) :
    (∀ _h : xs.length + 1 ≤ fuel,
      evaluate (filterGen p) fuel (filterInit xs c)
        = (((evaluate (counted listGen) fuel (xs, c)).1).filter p,
           ⟨[], c + xs.length + 1, true⟩)) ∧
    filterPull p xs c
      = ((xs.dropWhile fun a => !p a).head?,
         (xs.dropWhile fun a => !p a).tail,
         c + (xs.length - (xs.dropWhile fun a => !p a).length) + 1) := by
  constructor
  · intro h
    rw [evaluate_counted_listGen, filterInit]
    have htake : xs.take fuel = xs := List.take_of_length_le (by omega)
    rw [htake]
    exact evaluate_filterGen p fuel xs c h
  · exact filterPull_eq p xs c

/-- Witness for `filter_evaluate_spec`: filtering `[0, 1, 2, 3]` by
evenness and draining with fuel `5` yields `[0, 2]` with the source fully
pulled (five invocations). -/
theorem filter_evaluate_spec_witness :
    (evaluate (filterGen (fun x => x % 2 == 0)) 5
        (filterInit ([0, 1, 2, 3] : List Nat) 0)
      = ((((evaluate (counted listGen) 5 (([0, 1, 2, 3] : List Nat), 0)).1).filter
            (fun x => x % 2 == 0)),
         ⟨[], 0 + 4 + 1, true⟩)) ∧
    filterPull (fun x => x % 2 == 0) ([0, 1, 2, 3] : List Nat) 0
      = ((([0, 1, 2, 3] : List Nat).dropWhile fun a => !(a % 2 == 0)).head?,
         (([0, 1, 2, 3] : List Nat).dropWhile fun a => !(a % 2 == 0)).tail,
         0 + (4 - (([0, 1, 2, 3] : List Nat).dropWhile
            fun a => !(a % 2 == 0)).length) + 1) := by
  have h := filter_evaluate_spec (fun x => x % 2 == 0)
    ([0, 1, 2, 3] : List Nat) 0 5
  exact ⟨h.1 (by decide), h.2⟩

/-- State of the generator backing `map_enumerate(f)`
(`for i, value in enumerate(self.__safe_iter()): yield func(i, value)`):
remaining source, source invocation count, the private zero-based
counter, and the finished flag of the generator. -/
structure EnumState (α : Type) where
  src : List α
  calls : Nat
  idx : Nat
  done : Bool
  deriving DecidableEq, Repr

/-- Derived producer of `map_enumerate(f)`. -/
def mapEnumGen (f : Nat → α → β) : Gen (EnumState α) β := fun st =>
  if st.done then (none, st)
  else
    match st.src with
    | [] => (none, ⟨[], st.calls + 1, st.idx, true⟩)
    | a :: t => (some (f st.idx a), ⟨t, st.calls + 1, st.idx + 1, false⟩)

/-- State of the generator backing `for_each(f)`
(`for value in self.__safe_iter(): func(value); yield value`): remaining
source, source invocation count, the log of values `func` was applied to
(its observable side effect), and the finished flag. -/
structure EachState (α : Type) where
  src : List α
  calls : Nat
  log : List α
  done : Bool
  deriving DecidableEq, Repr

/-- Derived producer of `for_each(f)`: applies the side effect and passes
the value through unchanged. -/
def forEachGen : Gen (EachState α) α := fun st =>
  if st.done then (none, st)
  else
    match st.src with
    | [] => (none, ⟨[], st.calls + 1, st.log, true⟩)
    | a :: t => (some a, ⟨t, st.calls + 1, st.log ++ [a], false⟩)

/-- Which of the two upstream sequences of `zip` was pulled. -/
inductive Side : Type
  | left
  | right
  deriving DecidableEq, Repr

/-- State of `zip(other)` (`from_iterator(iter(zip(self.__safe_iter(),
other.__safe_iter())))`): the remaining elements and invocation counters
of the two sources, the finished flags of the two `__safe_iter`
generators (the builtin `zip` object itself caches nothing and re-pulls
its first iterator on every `next`), and the trace of source pulls in the
order they happened. -/
structure ZipState (α β : Type) where
  left : List α
  right : List β
  cl : Nat
  cr : Nat
  dl : Bool
  dr : Bool
  trace : List Side
  deriving DecidableEq, Repr

/-- One `next` on the wrapped `zip` object: pull the `self` iterator
first — a finished generator raises `StopIteration` at once, otherwise
the source is invoked; only if `self` yields is the `other` iterator
pulled, and the pair is yielded only if both yield.  `StopIteration` from
either side propagates (a value already pulled from `self` is
discarded). -/
def zipPull : Gen (ZipState α β) (α × β) := fun z =>
  if z.dl then (none, z)
  else
    match z.left with
    | [] =>
      (none, { z with left := [], cl := z.cl + 1, dl := true,
                      trace := z.trace ++ [Side.left] })
    | a :: t =>
      let z1 := { z with left := t, cl := z.cl + 1,
                         trace := z.trace ++ [Side.left] }
      if z1.dr then (none, z1)
      else
        match z1.right with
        | [] =>
          (none, { z1 with cr := z1.cr + 1, dr := true,
                           trace := z1.trace ++ [Side.right] })
        | b :: u =>
          (some (a, b), { z1 with right := u, cr := z1.cr + 1,
                                  trace := z1.trace ++ [Side.right] })

/-- Construction of `map(f)`: the derived stream captures the source
closure itself; its state is the source state, untouched. -/
def mapInit (s : σ) : σ := s

/-- Construction of `map_enumerate(f)`: fresh generator over the source in
state `(xs, c)`, counter at `0`, nothing pulled. -/
def mapEnumInit (xs : List α) (c : Nat) : EnumState α := ⟨xs, c, 0, false⟩

/-- Construction of `for_each(f)`: fresh generator, empty effect log,
nothing pulled. -/
def forEachInit (xs : List α) (c : Nat) : EachState α := ⟨xs, c, [], false⟩

/-- Construction of `self.zip(other)`: fresh `zip` over two fresh
`__safe_iter` generators, nothing pulled from either side. -/
def zipInit (xs : List α) (ys : List β) (cl cr : Nat) : ZipState α β :=
  ⟨xs, ys, cl, cr, false, false, []⟩

/-- C7: constructing `map`, `map_enumerate`, `filter`, `for_each` or
`zip` returns a new stream whose initial state embeds the source state
verbatim: the remaining source elements and the producer invocation
counts are exactly those of the source at construction time — zero pulls
are performed until the derived stream itself is pulled. -/
theorem construction_no_pull (xs : List α) (ys : List β) (c cl cr : Nat)
    (s : σ) :
    mapInit s = s ∧
    ((mapEnumInit xs c).src = xs ∧ (mapEnumInit xs c).calls = c) ∧
    ((filterInit xs c).src = xs ∧ (filterInit xs c).calls = c) ∧
    ((forEachInit xs c).src = xs ∧ (forEachInit xs c).calls = c) ∧
    ((zipInit xs ys cl cr).left = xs ∧ (zipInit xs ys cl cr).cl = cl ∧
     (zipInit xs ys cl cr).right = ys ∧ (zipInit xs ys cl cr).cr = cr) :=
  ⟨rfl, ⟨rfl, rfl⟩, ⟨rfl, rfl⟩, ⟨rfl, rfl⟩, ⟨rfl, rfl, rfl, rfl⟩⟩

theorem zipPull_nil_left (ys : List β) (cl cr : Nat) (tr : List Side) :
    zipPull (⟨[], ys, cl, cr, false, false, tr⟩ : ZipState α β)
      = (none, ⟨[], ys, cl + 1, cr, true, false, tr ++ [Side.left]⟩) := rfl

theorem zipPull_cons_nil (a : α) (t : List α) (cl cr : Nat)
    (tr : List Side) :
    zipPull (⟨a :: t, [], cl, cr, false, false, tr⟩ : ZipState α β)
      = (none, ⟨t, [], cl + 1, cr + 1, false, true,
                tr ++ [Side.left] ++ [Side.right]⟩) := rfl

theorem zipPull_cons_cons (a : α) (t : List α) (b : β) (u : List β)
    (cl cr : Nat) (tr : List Side) :
    zipPull (⟨a :: t, b :: u, cl, cr, false, false, tr⟩ : ZipState α β)
      = (some (a, b), ⟨t, u, cl + 1, cr + 1, false, false,
                       tr ++ [Side.left] ++ [Side.right]⟩) := rfl

theorem evaluate_zipPull_general :
    ∀ (fuel : Nat) (xs : List α) (ys : List β) (cl0 cr0 : Nat)
      (tr0 : List Side),
    min xs.length ys.length + 1 ≤ fuel →
    evaluate zipPull fuel ⟨xs, ys, cl0, cr0, false, false, tr0⟩
      = (xs.zip ys,
         ⟨xs.drop (min xs.length (ys.length + 1)),
          ys.drop (min xs.length ys.length),
          cl0 + (min xs.length ys.length + 1),
          cr0 + min xs.length (ys.length + 1),
          decide (xs.length ≤ ys.length),
          decide (ys.length < xs.length),
          tr0 ++ (List.replicate (min xs.length ys.length)
              [Side.left, Side.right]).flatten
            ++ (if xs.length ≤ ys.length then [Side.left]
                else [Side.left, Side.right])⟩) := by
  intro fuel
  induction fuel with
  | zero => intro xs ys cl0 cr0 tr0 h; omega
  | succ n ih =>
    intro xs ys cl0 cr0 tr0 h
    cases xs with
    | nil =>
      rw [evaluate_succ, zipPull_nil_left]
      dsimp only
      simp [Nat.zero_min]
    | cons a t =>
      cases ys with
      | nil =>
        have h0 : min (a :: t).length ([] : List β).length = 0 := by
          simp
        have h1 : min (a :: t).length (([] : List β).length + 1) = 1 := by
          simp only [List.length_cons, List.length_nil]
          omega
        have hdl : decide ((a :: t).length ≤ ([] : List β).length)
            = false := by
          simp only [List.length_cons, List.length_nil,
            decide_eq_false_iff_not]
          omega
        have hdr : decide (([] : List β).length < (a :: t).length)
            = true := by
          rw [decide_eq_true_eq]
          simp only [List.length_cons, List.length_nil]
          omega
        have hif : (if (a :: t).length ≤ ([] : List β).length
              then [Side.left] else [Side.left, Side.right])
            = [Side.left, Side.right] := by
          rw [if_neg]
          simp only [List.length_cons, List.length_nil]
          omega
        rw [evaluate_succ, zipPull_cons_nil]
        dsimp only
        rw [h0, h1, hdl, hdr, hif]
        simp [List.append_assoc]
      | cons b u =>
        have hmin : min (a :: t).length (b :: u).length
            = min t.length u.length + 1 := by
          simp only [List.length_cons]
          omega
        have hmin2 : min (a :: t).length ((b :: u).length + 1)
            = min t.length (u.length + 1) + 1 := by
          simp only [List.length_cons]
          omega
        have hdl : decide ((a :: t).length ≤ (b :: u).length)
            = decide (t.length ≤ u.length) := by
          rw [decide_eq_decide]
          simp only [List.length_cons]
          omega
        have hdr : decide ((b :: u).length < (a :: t).length)
            = decide (u.length < t.length) := by
          rw [decide_eq_decide]
          simp only [List.length_cons]
          omega
        have hif : (if (a :: t).length ≤ (b :: u).length
              then [Side.left] else [Side.left, Side.right])
            = (if t.length ≤ u.length
              then [Side.left] else [Side.left, Side.right]) := by
          simp only [List.length_cons, Nat.add_le_add_iff_right]
        have hfuel : min t.length u.length + 1 ≤ n := by
          simp only [List.length_cons] at h
          omega
        rw [evaluate_succ, zipPull_cons_cons]
        dsimp only
        rw [ih t u (cl0 + 1) (cr0 + 1)
          (tr0 ++ [Side.left] ++ [Side.right]) hfuel]
        rw [hmin, hmin2, hdl, hdr, hif, List.zip_cons_cons,
          List.drop_succ_cons, List.drop_succ_cons]
        simp only [Prod.mk.injEq, ZipState.mk.injEq, eq_self_iff_true,
          true_and, and_true]
        refine ⟨by omega, by omega, ?_⟩
        simp [List.replicate_succ, List.append_assoc]

/-- C3: evaluating `self.zip(other)` (with any fuel past exhaustion)
yields `List.zip` of the two finite sources — length
`min (len self) (len other)`, whose `i`-th element is the pair of the two
`i`-th elements, in pull order — and the final state records the exact
exhaustion behaviour: the zipped stream stops as soon as either side
exhausts with no partial pair ever emitted, and the trace of source pulls
is `self, other, self, other, …`: `self` is pulled strictly before
`other` on every step, with `other` not pulled at all on the step where
`self` exhausts. -/
theorem zip_evaluate_spec (xs : List α) (ys : List β) (fuel : Nat) :
    ∀ _h : min xs.length ys.length + 1 ≤ fuel,
    evaluate zipPull fuel (zipInit xs ys 0 0)
      = (xs.zip ys,
         ⟨xs.drop (min xs.length (ys.length + 1)),
          ys.drop (min xs.length ys.length),
          min xs.length ys.length + 1,
          min xs.length (ys.length + 1),
          decide (xs.length ≤ ys.length),
          decide (ys.length < xs.length),
          (List.replicate (min xs.length ys.length)
              [Side.left, Side.right]).flatten
            ++ (if xs.length ≤ ys.length then [Side.left]
                else [Side.left, Side.right])⟩) := by
  intro h
  rw [zipInit, evaluate_zipPull_general fuel xs ys 0 0 [] h]
  simp

/-- Witness for `zip_evaluate_spec`: zipping `[0, 1, 2]` with `[5, 6]`
and draining with fuel `3` yields `[(0, 5), (1, 6)]`; the third pull
consumed `2` from `self` and then hit exhaustion on `other`, and the
trace alternates `self, other` throughout. -/
theorem zip_evaluate_spec_witness :
    evaluate zipPull 3 (zipInit ([0, 1, 2] : List Nat) ([5, 6] : List Nat) 0 0)
      = ([(0, 5), (1, 6)],
         ⟨[], [], 3, 3, false, true,
          [Side.left, Side.right, Side.left, Side.right,
           Side.left, Side.right]⟩) := by
  have h := zip_evaluate_spec ([0, 1, 2] : List Nat) ([5, 6] : List Nat) 3
    (by decide)
  rw [h]
  decide

/-- Handle returned by the pool for one submitted invocation of
`self._generator`: the result it will eventually deliver (`none` means
that invocation raised `StopIteration`) and an opaque completion time.
Awaiting (`future.result()`) blocks until completion and returns the same
result no matter when the work finished. -/
structure Handle (α : Type) where
  result : Option α
  ctime : Nat
  deriving DecidableEq, Repr

/-- Submission loop of `par_evaluate`: `while len(futures) < limit:
futures.append(executor.submit(self._generator))` — exactly `limit`
invocations submitted up front, before anything is awaited.  Handle `i`
is the `i`-th submission; its eventual outcome `res i` and completion
time `ct i` are determined by the pool. -/
def submitAll (res : Nat → Option α) (ct : Nat → Nat) (limit : Nat) :
    List (Handle α) :=
  (List.range limit).map (fun i => ⟨res i, ct i⟩)

/-- Collection loop of `par_evaluate`: `for future in futures: try:
output.append(future.result()) except StopIteration: break` — await the
handles in submission order, stopping at the first exhausted one. -/
def collect : List (Handle α) → List α
  | [] => []
  | h :: t =>
    match h.result with
    | none => []
    | some a => a :: collect t

/-- `par_evaluate(limit, executor)`. -/
def parEvaluate (res : Nat → Option α) (ct : Nat → Nat) (limit : Nat) :
    List α :=
  collect (submitAll res ct limit)

theorem collect_eq (hs : List (Handle α)) :
    collect hs = ((hs.map (fun h => h.result)).takeWhile
      (fun r => r.isSome)).reduceOption := by
  induction hs with
  | nil => rfl
  | cons h t ih =>
    cases hr : h.result with
    | none => simp [collect, hr, List.takeWhile_cons]
    | some a => simp [collect, hr, List.takeWhile_cons, ih]

theorem collect_all_some :
    ∀ (hs t : List (Handle α)),
    (∀ x ∈ hs, (x.result).isSome = true) →
    collect (hs ++ t) = hs.filterMap (fun h => h.result) ++ collect t := by
  intro hs
  induction hs with
  | nil => intro t _; simp
  | cons h hs ih =>
    intro t hall
    have hh : (h.result).isSome = true := hall h (by simp)
    cases hr : h.result with
    | none => rw [hr] at hh; simp at hh
    | some a =>
      have ht := ih t (fun x hx => hall x (by simp [hx]))
      simp [collect, hr, List.filterMap_cons, ht]

/-- C2: `par_evaluate(limit, pool)` submits exactly `limit` invocations
up front; the collected output is the submission-order sequence of
results truncated at the first exhaustion signal — independent of the
completion times, since handles are awaited in submission order.  If
handle `j` is the first exhausted one, exactly the first `j` results are
returned and everything after handle `j` is discarded; with no exhaustion
among the `limit` handles all `limit` results are returned.  In
particular, against a producer whose five submitted invocations come back
as `0, 1, 2, exhausted, exhausted`, `par_evaluate(5, pool)` returns
`[0, 1, 2]` whatever the completion order. -/
theorem parEvaluate_spec (res : Nat → Option α) (ct ct' : Nat → Nat)
    (limit : Nat) :
    (submitAll res ct limit).length = limit ∧
    parEvaluate res ct limit
      = (((List.range limit).map res).takeWhile
          (fun r => r.isSome)).reduceOption ∧
    parEvaluate res ct limit = parEvaluate res ct' limit ∧
    (∀ j, ∀ _hj : j < limit, ∀ _hn : res j = none,
      ∀ _hall : ∀ i, i < j → (res i).isSome = true,
      parEvaluate res ct limit = (List.range j).filterMap res) ∧
    (∀ _hall : ∀ i, i < limit → (res i).isSome = true,
      parEvaluate res ct limit = (List.range limit).filterMap res) ∧
    parEvaluate (fun i => ([0, 1, 2] : List Nat)[i]?) ct 5 = [0, 1, 2] := by
  have hclosed : ∀ (c : Nat → Nat),
      parEvaluate res c limit
        = (((List.range limit).map res).takeWhile
            (fun r => r.isSome)).reduceOption := by
    intro c
    rw [parEvaluate, collect_eq, submitAll, List.map_map]
    rfl
  refine ⟨by simp [submitAll], hclosed ct, ?_, ?_, ?_, ?_⟩
  · rw [hclosed ct, hclosed ct']
  · intro j hj hn hall
    obtain ⟨k, rfl⟩ : ∃ k, limit = j + (k + 1) := ⟨limit - j - 1, by omega⟩
    have hsplit : List.range (j + (k + 1))
        = List.range j ++ j :: List.range' (j + 1) k := by
      have h1 := List.range'_append 0 j (k + 1) 1
      have h3 : 0 + 1 * j = j := by omega
      rw [h3] at h1
      rw [List.range_eq_range', List.range_eq_range']
      have h2 : j + (k + 1) = (k + 1) + j := by omega
      rw [h2, ← h1, List.range'_succ]
    rw [parEvaluate, submitAll, hsplit, List.map_append, List.map_cons]
    rw [collect_all_some _ _ ?_]
    · have hstop : collect ((⟨res j, ct j⟩ : Handle α)
          :: (List.range' (j + 1) k).map
              (fun i => (⟨res i, ct i⟩ : Handle α))) = [] := by
        simp [collect, hn]
      rw [hstop, List.append_nil, List.filterMap_map]
      rfl
    · intro x hx
      rw [List.mem_map] at hx
      obtain ⟨i, hi, rfl⟩ := hx
      rw [List.mem_range] at hi
      exact hall i hi
  · intro hall
    have := collect_all_some ((List.range limit).map
        (fun i => (⟨res i, ct i⟩ : Handle α))) [] ?_
    · rw [parEvaluate, submitAll]
      rw [List.append_nil] at this
      rw [this]
      simp [collect, List.filterMap_map]
      rfl
    · intro x hx
      rw [List.mem_map] at hx
      obtain ⟨i, hi, rfl⟩ := hx
      rw [List.mem_range] at hi
      exact hall i hi
  · rfl

/-- Witness for `parEvaluate_spec`: the producer delivering `0, 1, 2`
then exhaustion, submitted five times, with two different completion-time
assignments; the first exhausted handle is `j = 3` and the first three
results are some. -/
theorem parEvaluate_spec_witness :
    parEvaluate (fun i => ([0, 1, 2] : List Nat)[i]?) (fun i => 5 - i) 5
      = (List.range 3).filterMap (fun i => ([0, 1, 2] : List Nat)[i]?) := by
  have h := parEvaluate_spec (fun i => ([0, 1, 2] : List Nat)[i]?)
    (fun i => 5 - i) (fun _ => 0) 5
  exact h.2.2.2.1 3 (by decide) (by decide) (by decide)

/-- Body of `reduce(func, accum, limit)` after the defensive copy:
`for value in self.__safe_iter(limit): accum = func(accum, value)`;
returns the final accumulator and the final producer state.  As with
`evaluate`, the `limit=None` case is this loop with any sufficiently
large bound. -/
def reduceAux (g : Gen σ α) (f : β → α → β) : Nat → β → σ → β × σ
  | 0, acc, s => (acc, s)
  | n + 1, acc, s =>
    match g s with
    | (none, s') => (acc, s')
    | (some a, s') => reduceAux g f n (f acc a) s'

/-- Heap of mutable accumulator cells, modelling that the caller passes
`initial` by reference and that `copy.deepcopy` snapshots the value it
currently holds. -/
def Heap (β : Type) : Type := Nat → β

/-- Mutation of the cell at address `r`. -/
def writeH (h : Heap β) (r : Nat) (b : β) : Heap β :=
  fun x => if x = r then b else h x

/-- `reduce(func, accum, limit)` where `accum` is the reference `r` into
heap `h`: `accum = copy.deepcopy(accum)` reads the value currently at
`r`, and the fold runs on that private copy. -/
def reduceCall (g : Gen σ α) (f : β → α → β) (h : Heap β) (r : Nat)
    (n : Nat) (s : σ) : β × σ :=
  reduceAux g f n (h r) s

/-- Caller scenario for the defensive copy: call `reduce`, then mutate
the original accumulator cell to `b`.  Yields the already-returned
result, the mutated heap, and the final producer state. -/
def reduceThenMutate (g : Gen σ α) (f : β → α → β) (h : Heap β) (r : Nat)
    (b : β) (n : Nat) (s : σ) : β × Heap β × σ :=
  ((reduceCall g f h r n s).1, writeH h r b, (reduceCall g f h r n s).2)

theorem reduceAux_eq_foldl (g : Gen σ α) (f : β → α → β) :
    ∀ (n : Nat) (acc : β) (s : σ),
    reduceAux g f n acc s
      = (((evaluate g n s).1).foldl f acc, (evaluate g n s).2) := by
  intro n
  induction n with
  | zero => intro acc s; rfl
  | succ n ih =>
    intro acc s
    rw [evaluate_succ]
    show (match g s with
      | (none, s') => (acc, s')
      | (some a, s') => reduceAux g f n (f acc a) s') = _
    cases hg : g s with
    | mk r s' =>
      cases r with
      | none => simp
      | some a => simp [ih]

theorem evaluate_listGen (xs : List α) (n : Nat) :
    evaluate listGen n xs = (xs.take n, xs.drop n) := by
  induction n generalizing xs with
  | zero => simp [evaluate]
  | succ n ih =>
    cases xs with
    | nil => simp [evaluate, listGen]
    | cons a t => simp [evaluate, listGen, ih]

/-- C4: `reduce(f, initial, limit)` eagerly drains up to `limit` elements
(or to exhaustion) and returns the left-to-right fold of exactly those
elements starting from the accumulator; over the source `[1, 2, 3]` with
addition and initial `0` (any fuel past exhaustion) it returns `6`; the
result is computed from the snapshot `copy.deepcopy` takes of the initial
accumulator at call time, so mutating the original cell after the call
leaves the already-returned result unchanged, and the result depends only
on the value the cell held at call time. -/
theorem reduce_spec (g : Gen σ α) (f : β → α → β) (h h' : Heap β)
    (r n : Nat) (s : σ) (acc b : β) :
    reduceAux g f n acc s
      = (((evaluate g n s).1).foldl f acc, (evaluate g n s).2) ∧
    (∀ fuel, ∀ _h3 : 3 ≤ fuel,
      (reduceAux listGen (fun x y => x + y) fuel 0
          ([1, 2, 3] : List Nat)).1 = 6) ∧
    (reduceThenMutate g f h r b n s).1 = (reduceCall g f h r n s).1 ∧
    (∀ _hr : h r = h' r, reduceCall g f h r n s = reduceCall g f h' r n s) := by
  refine ⟨reduceAux_eq_foldl g f n acc s, ?_, rfl, ?_⟩
  · intro fuel h3
    rw [reduceAux_eq_foldl, evaluate_listGen]
    have htake : ([1, 2, 3] : List Nat).take fuel = [1, 2, 3] :=
      List.take_of_length_le (by simpa using h3)
    rw [htake]
    rfl
  · intro hr
    rw [reduceCall, reduceCall, hr]

/-- Witness for `reduce_spec`: the fold of `[1, 2, 3]` from `0` by
addition is `6`, and reading the accumulator from two heaps agreeing at
the address gives the same reduce result. -/
theorem reduce_spec_witness :
    (reduceAux listGen (fun x y => x + y) 3 0 ([1, 2, 3] : List Nat)).1 = 6 ∧
    reduceCall listGen (fun x y => x + y) (fun _ => 0) 0 3
        ([1, 2, 3] : List Nat)
      = reduceCall listGen (fun x y => x + y)
          (fun x => if x = 1 then 9 else 0) 0 3 ([1, 2, 3] : List Nat) := by
  have h := reduce_spec listGen (fun x y => x + y) (fun _ => 0)
    (fun x => if x = 1 then 9 else 0) 0 3 ([1, 2, 3] : List Nat) 0 0
  exact ⟨h.2.1 3 (by decide), h.2.2.2 (by decide)⟩

/-- State of a stream after `k` further pulls. -/
def pulls (g : Gen σ α) : Nat → σ → σ
  | 0, s => s
  | k + 1, s => pulls g k (g s).2

theorem filterGen_done (p : α → Bool) (st : FilState α)
    (h : st.done = true) : filterGen p st = (none, st) := by
  simp [filterGen, h]

theorem filterGen_none_done (p : α → Bool) (st : FilState α)
    (h : (filterGen p st).1 = none) : ((filterGen p st).2).done = true := by
  cases hd : st.done with
  | true => rw [filterGen_done p st hd]; exact hd
  | false =>
    rw [filterGen] at h ⊢
    rw [hd] at h ⊢
    cases hp : filterPull p st.src st.calls with
    | mk r rest =>
      cases r with
      | none => simp [hp]
      | some a => simp [hp] at h

theorem filterGen_done_stable (p : α → Bool) :
    ∀ (k : Nat) (st : FilState α), st.done = true →
    pulls (filterGen p) k st = st := by
  intro k
  induction k with
  | zero => intro st _; rfl
  | succ k ih =>
    intro st h
    show pulls (filterGen p) k (filterGen p st).2 = st
    rw [filterGen_done p st h]
    exact ih st h

theorem forEachGen_done (st : EachState α)
    (h : st.done = true) : forEachGen st = (none, st) := by
  simp [forEachGen, h]

theorem forEachGen_none_done (st : EachState α)
    (h : (forEachGen (α := α) st).1 = none) :
    ((forEachGen st).2).done = true := by
  cases hd : st.done with
  | true => rw [forEachGen_done st hd]; exact hd
  | false =>
    rw [forEachGen] at h ⊢
    rw [hd] at h ⊢
    cases hs : st.src with
    | nil => simp
    | cons a t => simp [hs] at h

theorem forEachGen_done_stable :
    ∀ (k : Nat) (st : EachState α), st.done = true →
    pulls forEachGen k st = st := by
  intro k
  induction k with
  | zero => intro st _; rfl
  | succ k ih =>
    intro st h
    show pulls forEachGen k (forEachGen st).2 = st
    rw [forEachGen_done st h]
    exact ih st h

theorem mapEnumGen_done (f : Nat → α → β) (st : EnumState α)
    (h : st.done = true) : mapEnumGen f st = (none, st) := by
  simp [mapEnumGen, h]

theorem mapEnumGen_none_done (f : Nat → α → β) (st : EnumState α)
    (h : (mapEnumGen f st).1 = none) :
    ((mapEnumGen f st).2).done = true := by
  cases hd : st.done with
  | true => rw [mapEnumGen_done f st hd]; exact hd
  | false =>
    rw [mapEnumGen] at h ⊢
    rw [hd] at h ⊢
    cases hs : st.src with
    | nil => simp
    | cons a t => simp [hs] at h

theorem mapEnumGen_done_stable (f : Nat → α → β) :
    ∀ (k : Nat) (st : EnumState α), st.done = true →
    pulls (mapEnumGen f) k st = st := by
  intro k
  induction k with
  | zero => intro st _; rfl
  | succ k ih =>
    intro st h
    show pulls (mapEnumGen f) k (mapEnumGen f st).2 = st
    rw [mapEnumGen_done f st h]
    exact ih st h

theorem zipPull_dl (z : ZipState α β) (h : z.dl = true) :
    zipPull z = (none, z) := by
  simp [zipPull, h]

theorem zipPull_dl_stable :
    ∀ (k : Nat) (z : ZipState α β), z.dl = true →
    pulls zipPull k z = z := by
  intro k
  induction k with
  | zero => intro z _; rfl
  | succ k ih =>
    intro z h
    show pulls zipPull k (zipPull z).2 = z
    rw [zipPull_dl z h]
    exact ih z h

theorem zipPull_flag_none (z : ZipState α β)
    (h : z.dl = true ∨ z.dr = true) :
    (zipPull z).1 = none ∧
    ((zipPull z).2.dl = true ∨ (zipPull z).2.dr = true) := by
  obtain ⟨l, rr, cl, cr, dl, dr, tr⟩ := z
  cases dl with
  | true => exact ⟨rfl, Or.inl rfl⟩
  | false =>
    have hdr : dr = true := by
      rcases h with h | h
      · exact Bool.noConfusion h
      · exact h
    subst hdr
    cases l with
    | nil => exact ⟨rfl, Or.inl rfl⟩
    | cons a t => exact ⟨rfl, Or.inr rfl⟩

theorem zipPull_none_flag (z : ZipState α β)
    (h : (zipPull z).1 = none) :
    (zipPull z).2.dl = true ∨ (zipPull z).2.dr = true := by
  obtain ⟨l, rr, cl, cr, dl, dr, tr⟩ := z
  cases dl with
  | true => exact Or.inl rfl
  | false =>
    cases l with
    | nil => exact Or.inl rfl
    | cons a t =>
      cases dr with
      | true => exact Or.inr rfl
      | false =>
        cases rr with
        | nil => exact Or.inr rfl
        | cons b u => simp [zipPull] at h

theorem zipPull_exhaustion_permanent (z : ZipState α β)
    (h : z.dl = true ∨ z.dr = true) :
    ∀ k, (zipPull (pulls zipPull k z)).1 = none := by
  intro k
  induction k generalizing z with
  | zero => exact (zipPull_flag_none z h).1
  | succ k ih =>
    show (zipPull (pulls zipPull k (zipPull z).2)).1 = none
    exact ih (zipPull z).2 (zipPull_flag_none z h).2

/-- C10 (counterexample): take `self` backed by `[0, 1]` and `other`
backed by `[10]`.  The first pull of the zipped stream yields `(0, 10)`;
the second pull signals exhaustion (`other` exhausted first), with the
producer of `self` invoked twice so far.  The third pull — after
exhaustion has been signalled — signals exhaustion again but invokes the
upstream producer of `self` a third time: the finished-generator
guarantee fails for `zip`. -/
theorem zip_exhaustion_repull_cex :
    (zipPull (zipInit ([0, 1] : List Nat) ([10] : List Nat) 0 0)).1
      = some (0, 10) ∧
    (zipPull (zipPull
        (zipInit ([0, 1] : List Nat) ([10] : List Nat) 0 0)).2).1 = none ∧
    (zipPull (zipPull
        (zipInit ([0, 1] : List Nat) ([10] : List Nat) 0 0)).2).2.cl = 2 ∧
    (zipPull (zipPull (zipPull
        (zipInit ([0, 1] : List Nat) ([10] : List Nat) 0 0)).2).2).1
      = none ∧
    (zipPull (zipPull (zipPull
        (zipInit ([0, 1] : List Nat) ([10] : List Nat) 0 0)).2).2).2.cl
      = 3 := by
  decide

/-- C10 (amended): for the generator-backed `filter`, `for_each` and
`map_enumerate` streams, once the derived producer signals exhaustion,
every later pull signals exhaustion again with the state — including the
upstream invocation count — unchanged: the upstream producer is never
invoked again.  For `zip`, exhaustion is permanent as a signal (every
later pull also signals exhaustion), and when the `self` iterator is the
finished one the state is unchanged thereafter with no further upstream
invocation; when only `other` exhausted first, later pulls may still
invoke the upstream producer of `self` (see the counterexample). -/
theorem derived_exhaustion_spec (p : α → Bool) (f : Nat → α → β)
    (stf : FilState α) (ste : EachState α) (stm : EnumState α)
    (z z' : ZipState α β) :
    (∀ _h : (filterGen p stf).1 = none, ∀ k,
      pulls (filterGen p) k (filterGen p stf).2 = (filterGen p stf).2 ∧
      (filterGen p (pulls (filterGen p) k (filterGen p stf).2)).1
        = none) ∧
    (∀ _h : (forEachGen ste).1 = none, ∀ k,
      pulls forEachGen k (forEachGen ste).2 = (forEachGen ste).2 ∧
      (forEachGen (pulls forEachGen k (forEachGen ste).2)).1 = none) ∧
    (∀ _h : (mapEnumGen f stm).1 = none, ∀ k,
      pulls (mapEnumGen f) k (mapEnumGen f stm).2 = (mapEnumGen f stm).2 ∧
      (mapEnumGen f (pulls (mapEnumGen f) k (mapEnumGen f stm).2)).1
        = none) ∧
    (∀ _h : (zipPull z).1 = none, ∀ k,
      (zipPull (pulls zipPull k (zipPull z).2)).1 = none) ∧
    (∀ _h : z'.dl = true, ∀ k,
      pulls zipPull k z' = z' ∧ (zipPull (pulls zipPull k z')).1 = none) := by
  refine ⟨?_, ?_, ?_, ?_, ?_⟩
  · intro h k
    have hd := filterGen_none_done p stf h
    have hs := filterGen_done_stable p k (filterGen p stf).2 hd
    rw [hs, filterGen_done p (filterGen p stf).2 hd]
    exact ⟨rfl, rfl⟩
  · intro h k
    have hd := forEachGen_none_done ste h
    have hs := forEachGen_done_stable k (forEachGen ste).2 hd
    rw [hs, forEachGen_done (forEachGen ste).2 hd]
    exact ⟨rfl, rfl⟩
  · intro h k
    have hd := mapEnumGen_none_done f stm h
    have hs := mapEnumGen_done_stable f k (mapEnumGen f stm).2 hd
    rw [hs, mapEnumGen_done f (mapEnumGen f stm).2 hd]
    exact ⟨rfl, rfl⟩
  · intro h k
    exact zipPull_exhaustion_permanent (zipPull z).2 (zipPull_none_flag z h) k
  · intro h k
    have hs := zipPull_dl_stable k z' h
    rw [hs, zipPull_dl z' h]
    exact ⟨rfl, rfl⟩

/-- Witness for `derived_exhaustion_spec`: concrete exhausted states of
each derived stream, pulled twice more. -/
theorem derived_exhaustion_spec_witness :
    (pulls (filterGen (fun x => x % 2 == 0)) 2
        (filterGen (fun x => x % 2 == 0)
          (⟨[], 3, false⟩ : FilState Nat)).2
      = (filterGen (fun x => x % 2 == 0)
          (⟨[], 3, false⟩ : FilState Nat)).2) ∧
    (pulls forEachGen 2 (forEachGen (⟨[], 2, [9], false⟩ : EachState Nat)).2
      = (forEachGen (⟨[], 2, [9], false⟩ : EachState Nat)).2) ∧
    (pulls (mapEnumGen (fun i x => i + x)) 2
        (mapEnumGen (fun i x => i + x)
          (⟨[], 1, 4, false⟩ : EnumState Nat)).2
      = (mapEnumGen (fun i x => i + x)
          (⟨[], 1, 4, false⟩ : EnumState Nat)).2) ∧
    (zipPull (pulls zipPull 2
        (zipPull (⟨[5], [], 1, 1, false, true, []⟩ : ZipState Nat Nat)).2)).1
      = none ∧
    (pulls zipPull 2 (⟨[], [7], 2, 1, true, false, []⟩ : ZipState Nat Nat)
      = (⟨[], [7], 2, 1, true, false, []⟩ : ZipState Nat Nat)) := by
  have h := derived_exhaustion_spec (fun x => x % 2 == 0)
    (fun i x => i + x) (⟨[], 3, false⟩ : FilState Nat)
    (⟨[], 2, [9], false⟩ : EachState Nat)
    (⟨[], 1, 4, false⟩ : EnumState Nat)
    (⟨[5], [], 1, 1, false, true, []⟩ : ZipState Nat Nat)
    (⟨[], [7], 2, 1, true, false, []⟩ : ZipState Nat Nat)
  refine ⟨(h.1 (by decide) 2).1, (h.2.1 (by decide) 2).1,
    (h.2.2.1 (by decide) 2).1, h.2.2.2.1 (by decide) 2,
    (h.2.2.2.2 (by decide) 2).1⟩

end LazyStream
